import Mathlib

/-!
Verification of the pulser-notebooks repository.

The repository consists of two Jupyter notebooks built on the Pulser /
QuTiP simulation stack.  The only original logic is a handful of short
mathematical functions: single-qubit noise channels expressed through
Kraus operators, Bloch-vector conversions, QUBO cost evaluation, a
coordinate-embedding cost function, a ring-register construction, and a
QAOA optimisation loop with a broad exception handler.  This file embeds
those functions faithfully and settles the frozen claims about them.

Floating-point arithmetic is idealised as real (or rational, where the
source only uses field operations) arithmetic; 2x2 complex density
matrices are `Matrix (Fin 2) (Fin 2) ℂ`.
-/

open Matrix

noncomputable section

/-! ### Noise-channel notebook (src/unnamed/part_000)

The notebook works with `qutip.sigmax()`, `qutip.sigmay()`,
`qutip.sigmaz()` and `qutip.qeye(2)`; we embed them as concrete 2x2
complex matrices. -/

/-- The Pauli X matrix, `qutip.sigmax()`. -/
def sigmax : Matrix (Fin 2) (Fin 2) ℂ := !![0, 1; 1, 0]

/-- The Pauli Y matrix, `qutip.sigmay()`. -/
def sigmay : Matrix (Fin 2) (Fin 2) ℂ := !![0, -Complex.I; Complex.I, 0]

/-- The Pauli Z matrix, `qutip.sigmaz()`. -/
def sigmaz : Matrix (Fin 2) (Fin 2) ℂ := !![1, 0; 0, -1]

/-- Embedding of `vector_to_dm(r_x, r_y, r_z)`:
`0.5 * (qeye(2) + r_x * sigmax() + r_y * sigmay() + r_z * sigmaz())`. -/
def vector_to_dm (r_x r_y r_z : ℝ) : Matrix (Fin 2) (Fin 2) ℂ :=
  (1 / 2 : ℂ) •
    ((1 : Matrix (Fin 2) (Fin 2) ℂ) + (r_x : ℂ) • sigmax + (r_y : ℂ) • sigmay
      + (r_z : ℂ) • sigmaz)

/-- Embedding of `dm_to_vector(rho)`: it forms `I = 2 * rho - np.eye(2)` and
returns `(np.real((I[0,1] + I[1,0]) / 2), np.real((I[1,0] - I[0,1]) / 2),
np.real(I[0,0]))`. -/
def dm_to_vector (rho : Matrix (Fin 2) (Fin 2) ℂ) : ℝ × ℝ × ℝ :=
  let M := (2 : ℂ) • rho - 1
  (((M 0 1 + M 1 0) / 2).re, ((M 1 0 - M 0 1) / 2).re, (M 0 0).re)

/-- Embedding of `depolarizing_channel(rho, prob)`:
`(1 - 3*prob/4) * rho + prob/4 * (sx*rho*sx + sy*rho*sy + sz*rho*sz)`. -/
def depolarizing_channel (rho : Matrix (Fin 2) (Fin 2) ℂ) (prob : ℝ) :
    Matrix (Fin 2) (Fin 2) ℂ :=
  ((1 : ℂ) - 3 * (prob : ℂ) / 4) • rho +
    ((prob : ℂ) / 4) •
      (sigmax * rho * sigmax + sigmay * rho * sigmay + sigmaz * rho * sigmaz)

/-- Embedding of `dephasing_channel(rho, prob)`:
`(1 - prob/2) * rho + prob/2 * sigmaz() * rho * sigmaz()`. -/
def dephasing_channel (rho : Matrix (Fin 2) (Fin 2) ℂ) (prob : ℝ) :
    Matrix (Fin 2) (Fin 2) ℂ :=
  ((1 : ℂ) - (prob : ℂ) / 2) • rho + ((prob : ℂ) / 2) • (sigmaz * rho * sigmaz)

/-- The dephasing Kraus operator `M0 = sqrt(1 - p/2) * I`. -/
def dephasing_M0 (p : ℝ) : Matrix (Fin 2) (Fin 2) ℂ :=
  ((Real.sqrt (1 - p / 2) : ℝ) : ℂ) • 1

/-- The dephasing Kraus operator `M1 = sqrt(p/2) * sigma_z`. -/
def dephasing_M1 (p : ℝ) : Matrix (Fin 2) (Fin 2) ℂ :=
  ((Real.sqrt (p / 2) : ℝ) : ℂ) • sigmaz

/-- The depolarizing Kraus operator `M0 = sqrt(1 - 3p/4) * I`. -/
def depolarizing_M0 (p : ℝ) : Matrix (Fin 2) (Fin 2) ℂ :=
  ((Real.sqrt (1 - 3 * p / 4) : ℝ) : ℂ) • 1

/-- The depolarizing Kraus operator `M1 = sqrt(p/4) * sigma_x`. -/
def depolarizing_M1 (p : ℝ) : Matrix (Fin 2) (Fin 2) ℂ :=
  ((Real.sqrt (p / 4) : ℝ) : ℂ) • sigmax

/-- The depolarizing Kraus operator `M2 = sqrt(p/4) * sigma_y`. -/
def depolarizing_M2 (p : ℝ) : Matrix (Fin 2) (Fin 2) ℂ :=
  ((Real.sqrt (p / 4) : ℝ) : ℂ) • sigmay

/-- The depolarizing Kraus operator `M3 = sqrt(p/4) * sigma_z`. -/
def depolarizing_M3 (p : ℝ) : Matrix (Fin 2) (Fin 2) ℂ :=
  ((Real.sqrt (p / 4) : ℝ) : ℂ) • sigmaz

end

/-! ### QUBO cost evaluation (src/simulating_sequences.ipynb)

`get_cost_colouring` and `get_cost` only use field operations on the
sample counts and the QUBO matrix, so they are embedded over `ℚ` and stay
executable. -/

/-- The integer vector `z = np.array(list(bitstring), dtype=int)`, read as a
length-`n` vector; entries beyond the end of the list default to `0` (the
claims only concern bitstrings of length exactly `n`). -/
def zvec (n : ℕ) (b : List ℕ) : Fin n → ℚ := fun i => ((b.getD i.val 0 : ℕ) : ℚ)

/-- Embedding of `get_cost_colouring(bitstring, Q)`: the quadratic form
`z.T @ Q @ z`. -/
def get_cost_colouring {n : ℕ} (b : List ℕ) (Q : Matrix (Fin n) (Fin n) ℚ) : ℚ :=
  Matrix.dotProduct (zvec n b) (Q.mulVec (zvec n b))

/-- A Python `Counter`, embedded as an association list from bitstrings
(lists of digits) to sample counts; dict iteration order is the list
order. -/
abbrev Counter := List (List ℕ × ℕ)

/-- `sum(counter.values())`. -/
def total_count (counter : Counter) : ℕ := (counter.map Prod.snd).sum

/-- Embedding of `get_cost(counter, Q)`:
`sum(counter[key] * get_cost_colouring(key, Q) for key in counter)`
divided by `sum(counter.values())`. -/
def get_cost {n : ℕ} (counter : Counter) (Q : Matrix (Fin n) (Fin n) ℚ) : ℚ :=
  (counter.map fun kc => (kc.2 : ℚ) * get_cost_colouring kc.1 Q).sum
    / ((total_count counter : ℕ) : ℚ)

/-- Division as Python evaluates it: raising (here `none`) on a zero
denominator. -/
def pydiv (a b : ℚ) : Option ℚ := if b = 0 then none else some (a / b)

/-- `get_cost` with its single division checked by `pydiv`. -/
def get_cost_checked {n : ℕ} (counter : Counter)
    (Q : Matrix (Fin n) (Fin n) ℚ) : Option ℚ :=
  pydiv ((counter.map fun kc => (kc.2 : ℚ) * get_cost_colouring kc.1 Q).sum)
    ((total_count counter : ℕ) : ℚ)

/-! ### The QAOA repetition loop (src/simulating_sequences.ipynb)

Each repetition draws a fresh random guess and calls `scipy.optimize.minimize`
inside `try: ... except Exception: pass`.  The call into the external
optimizer is modelled by its outcome: `some (res.fun, res.x)` on success,
`none` when any exception was raised. -/

/-- One repetition of the QAOA optimisation loop: on success the loop appends
`res.fun` to `scores` and `res.x` to `params`; the `except ... pass` arm
leaves the accumulated state unchanged. -/
def qaoaStep (st : List ℝ × List (List ℝ)) (outcome : Option (ℝ × List ℝ)) :
    List ℝ × List (List ℝ) :=
  match outcome with
  | some r => (st.1 ++ [r.1], st.2 ++ [r.2])
  | none => st

/-- The QAOA repetition loop: starting from empty `scores` and `params` it
performs one `qaoaStep` per repetition and never aborts early. -/
def qaoaLoop (outcomes : List (Option (ℝ × List ℝ))) : List ℝ × List (List ℝ) :=
  outcomes.foldl qaoaStep ([], [])

/-! ### Coordinate embedding and ring register
(src/simulating_sequences.ipynb) -/

noncomputable section

/-- Euclidean distance between two planar points. -/
def dist2 (p q : ℝ × ℝ) : ℝ :=
  Real.sqrt ((p.1 - q.1) ^ 2 + (p.2 - q.2) ^ 2)

/-- `np.reshape(new_coords, (n, 2))`: the flat vector read as `n` planar
points; out-of-range reads default to `0` (the claims only concern vectors
of length exactly `2 * n`). -/
def reshape2 (xs : List ℝ) (n : ℕ) : Fin n → ℝ × ℝ :=
  fun i => (xs.getD (2 * i.val) 0, xs.getD (2 * i.val + 1) 0)

/-- The index set of the condensed pairwise vector of
`scipy.spatial.distance.pdist`: ordered pairs `i < j`. -/
abbrev PairIdx (n : ℕ) := {q : Fin n × Fin n // q.1 < q.2}

/-- `pdist(points)`: the condensed vector of pairwise Euclidean distances. -/
def pdist {n : ℕ} (pts : Fin n → ℝ × ℝ) (p : PairIdx n) : ℝ :=
  dist2 (pts p.1.1) (pts p.1.2)

/-- `scipy.spatial.distance.squareform(v)`: the symmetric hollow matrix
built from a condensed pairwise vector. -/
def squareform {n : ℕ} (v : PairIdx n → ℝ) : Matrix (Fin n) (Fin n) ℝ :=
  Matrix.of fun i j =>
    if h : i < j then v ⟨(i, j), h⟩
    else if h : j < i then v ⟨(j, i), h⟩
    else 0

/-- Modelled from the spec: `DigitalAnalogDevice.interaction_coeff`, the
device's Rydberg interaction coefficient.  It is an external library
constant (not part of this repository's sources); the claims do not depend
on its exact value. -/
def interaction_coeff : ℝ := 5420158.53

/-- `np.linalg.norm` on a real matrix: the Frobenius (Euclidean) norm. -/
def np_linalg_norm {n : ℕ} (A : Matrix (Fin n) (Fin n) ℝ) : ℝ :=
  Real.sqrt (∑ i, ∑ j, A i j ^ 2)

/-- Embedding of `evaluate_mapping(new_coords, Q, shape)` with
`shape = (n, 2)`: reshape the flat vector, form
`new_Q = squareform(interaction_coeff / pdist(new_coords) ** 6)` and return
`np.linalg.norm(new_Q - Q)`. -/
def evaluate_mapping {n : ℕ} (new_coords : List ℝ)
    (Q : Matrix (Fin n) (Fin n) ℝ) : ℝ :=
  np_linalg_norm
    (squareform
        (fun p => interaction_coeff / pdist (reshape2 new_coords n) p ^ 6) - Q)

open Classical in
/-- `evaluate_mapping` with its elementwise division checked: `none` when
any condensed pairwise distance is zero. -/
def evaluate_mapping_checked {n : ℕ} (new_coords : List ℝ)
    (Q : Matrix (Fin n) (Fin n) ℝ) : Option ℝ :=
  if ∀ p : PairIdx n, pdist (reshape2 new_coords n) p ≠ 0
  then some (evaluate_mapping new_coords Q) else none

/-- Stated from the spec for claim C4: the symmetric matrix with zero
diagonal whose off-diagonal entries are
`interaction_coeff / d(p_i, p_j)^6`. -/
def specNewQ {n : ℕ} (pts : Fin n → ℝ × ℝ) : Matrix (Fin n) (Fin n) ℝ :=
  Matrix.of fun i j =>
    if i = j then 0 else interaction_coeff / dist2 (pts i) (pts j) ^ 6

/-- Embedding of the antiferromagnet ring-register coordinates:
`R_interatomic / (2 * tan(pi / L)) * (cos(theta * 2 * pi / L),
sin(theta * 2 * pi / L))`.  `R` stands for the library value
`MockDevice.rydberg_blockade_radius(Omega_max)`, a positive real. -/
def ring_coords (R : ℝ) (L : ℕ) (theta : ℕ) : ℝ × ℝ :=
  (R / (2 * Real.tan (Real.pi / L)) * Real.cos (theta * 2 * Real.pi / L),
   R / (2 * Real.tan (Real.pi / L)) * Real.sin (theta * 2 * Real.pi / L))

end

/-! ### Concrete data used by the witnesses -/

/-- A concrete sample counter. -/
def cnt_ex : Counter := [([0, 1], 3), ([1, 0], 1)]

/-- A concrete QUBO matrix over `ℚ`. -/
def Q_ex : Matrix (Fin 2) (Fin 2) ℚ := !![1, 2; 3, 4]

/-- A concrete flat coordinate vector with two distinct reshaped points. -/
noncomputable def coords_ex : List ℝ := [0, 0, 1, 0]

/-! ### Helper lemmas -/

/-- The Pauli matrices square to the identity. -/
lemma sigmax_mul_sigmax : sigmax * sigmax = 1 := by
  ext i j
  fin_cases i <;> fin_cases j <;>
    simp [sigmax, Matrix.mul_apply, Fin.sum_univ_succ, Matrix.one_apply]

lemma sigmay_mul_sigmay : sigmay * sigmay = 1 := by
  ext i j
  fin_cases i <;> fin_cases j <;>
    simp [sigmay, Matrix.mul_apply, Fin.sum_univ_succ, Matrix.one_apply]

lemma sigmaz_mul_sigmaz : sigmaz * sigmaz = 1 := by
  ext i j
  fin_cases i <;> fin_cases j <;>
    simp [sigmaz, Matrix.mul_apply, Fin.sum_univ_succ, Matrix.one_apply]

/-- The Pauli matrices are Hermitian. -/
lemma sigmax_conjTranspose : sigmaxᴴ = sigmax := by
  ext i j
  fin_cases i <;> fin_cases j <;>
    simp [sigmax, Matrix.conjTranspose_apply]

lemma sigmay_conjTranspose : sigmayᴴ = sigmay := by
  ext i j
  fin_cases i <;> fin_cases j <;>
    simp [sigmay, Matrix.conjTranspose_apply]

lemma sigmaz_conjTranspose : sigmazᴴ = sigmaz := by
  ext i j
  fin_cases i <;> fin_cases j <;>
    simp [sigmaz, Matrix.conjTranspose_apply]

/-- Conjugation by a real multiple of a matrix pulls the squared scalar
out. -/
lemma real_smul_kraus_apply (r : ℝ) (A rho : Matrix (Fin 2) (Fin 2) ℂ) :
    (((r : ℝ) : ℂ) • A) * rho * (((r : ℝ) : ℂ) • A)ᴴ
      = (((r ^ 2 : ℝ) : ℂ)) • (A * rho * Aᴴ) := by
  rw [Matrix.conjTranspose_smul]
  have hs : star ((r : ℝ) : ℂ) = ((r : ℝ) : ℂ) := by
    simp [Complex.star_def, Complex.conj_ofReal]
  rw [hs, smul_mul_assoc, smul_mul_assoc, mul_smul_comm, smul_smul]
  congr 1
  push_cast
  ring

/-- The quadratic form of `get_cost_colouring` written as an explicit double
sum. -/
lemma get_cost_colouring_eq_double_sum {n : ℕ} (b : List ℕ)
    (Q : Matrix (Fin n) (Fin n) ℚ) :
    get_cost_colouring b Q = ∑ i, ∑ j, zvec n b i * Q i j * zvec n b j := by
  simp only [get_cost_colouring, Matrix.dotProduct, Matrix.mulVec,
    Finset.mul_sum]
  exact Finset.sum_congr rfl fun i _ =>
    Finset.sum_congr rfl fun j _ => by ring

/-- The Euclidean planar distance is symmetric. -/
lemma dist2_comm (p q : ℝ × ℝ) : dist2 p q = dist2 q p := by
  unfold dist2
  congr 1
  ring

/-- The Euclidean planar distance vanishes exactly on equal points. -/
lemma dist2_eq_zero_iff (p q : ℝ × ℝ) : dist2 p q = 0 ↔ p = q := by
  unfold dist2
  rw [Real.sqrt_eq_zero (by positivity)]
  constructor
  · intro h
    have h1 : (p.1 - q.1) ^ 2 = 0 := by nlinarith [sq_nonneg (p.2 - q.2)]
    have h2 : (p.2 - q.2) ^ 2 = 0 := by nlinarith [sq_nonneg (p.1 - q.1)]
    have h1' := pow_eq_zero_iff (n := 2) (by norm_num) |>.mp h1
    have h2' := pow_eq_zero_iff (n := 2) (by norm_num) |>.mp h2
    exact Prod.ext (by linarith) (by linarith)
  · rintro rfl
    ring_nf

/-- All condensed pairwise distances are nonzero exactly when the points are
pairwise distinct. -/
lemma pdist_ne_zero_iff_injective {n : ℕ} (pts : Fin n → ℝ × ℝ) :
    (∀ p : PairIdx n, pdist pts p ≠ 0) ↔
      ∀ i j : Fin n, i ≠ j → pts i ≠ pts j := by
  constructor
  · intro h i j hij heq
    rcases lt_or_gt_of_ne hij with hlt | hgt
    · exact h ⟨(i, j), hlt⟩ ((dist2_eq_zero_iff _ _).mpr heq)
    · exact h ⟨(j, i), hgt⟩ ((dist2_eq_zero_iff _ _).mpr heq.symm)
  · intro h p hzero
    exact h p.1.1 p.1.2 (ne_of_lt p.2) ((dist2_eq_zero_iff _ _).mp hzero)

/-- The squareform of the condensed interaction vector is the matrix
described by the spec. -/
lemma squareform_pdist_eq_specNewQ {n : ℕ} (pts : Fin n → ℝ × ℝ) :
    squareform (fun p => interaction_coeff / pdist pts p ^ 6) = specNewQ pts := by
  ext i j
  unfold squareform specNewQ pdist
  rcases lt_trichotomy i j with hlt | heq | hgt
  · rw [Matrix.of_apply, Matrix.of_apply, dif_pos hlt, if_neg (ne_of_lt hlt)]
  · subst heq
    rw [Matrix.of_apply, Matrix.of_apply, dif_neg (lt_irrefl i),
      dif_neg (lt_irrefl i), if_pos rfl]
  · rw [Matrix.of_apply, Matrix.of_apply, dif_neg (not_lt_of_gt hgt),
      dif_pos hgt, if_neg (ne_of_gt hgt), dist2_comm]

/-- Generalised accumulator form of the QAOA loop. -/
lemma qaoaLoop_foldl (outcomes : List (Option (ℝ × List ℝ)))
    (st : List ℝ × List (List ℝ)) :
    outcomes.foldl qaoaStep st
      = (st.1 ++ (outcomes.filterMap id).map Prod.fst,
         st.2 ++ (outcomes.filterMap id).map Prod.snd) := by
  induction outcomes generalizing st with
  | nil => simp
  | cons o rest ih =>
    cases o with
    | none => simp [List.foldl_cons, qaoaStep, ih]
    | some r => simp [List.foldl_cons, qaoaStep, ih]

/-- Chord identity: the squared distance between two points of the unit
circle. -/
lemma cos_sin_chord (A B : ℝ) :
    (Real.cos A - Real.cos B) ^ 2 + (Real.sin A - Real.sin B) ^ 2
      = 2 - 2 * Real.cos (A - B) := by
  have h := Real.cos_sub A B
  have hA := Real.sin_sq_add_cos_sq A
  have hB := Real.sin_sq_add_cos_sq B
  nlinarith [h, hA, hB]

/-- Facts about the angle `pi / 14`. -/
lemma pi_div_14_pos : 0 < Real.pi / 14 := by positivity

lemma pi_div_14_lt_pi_div_two : Real.pi / 14 < Real.pi / 2 := by
  nlinarith [Real.pi_pos]

lemma sin_pi_div_14_pos : 0 < Real.sin (Real.pi / 14) :=
  Real.sin_pos_of_pos_of_lt_pi pi_div_14_pos
    (by nlinarith [Real.pi_pos])

lemma cos_pi_div_14_pos : 0 < Real.cos (Real.pi / 14) :=
  Real.cos_pos_of_mem_Ioo
    ⟨by nlinarith [Real.pi_pos], pi_div_14_lt_pi_div_two⟩

lemma tan_pi_div_14_pos : 0 < Real.tan (Real.pi / 14) :=
  Real.tan_pos_of_pos_of_lt_pi_div_two pi_div_14_pos pi_div_14_lt_pi_div_two

/-- Distance between circularly adjacent atoms of the ring register with
`L = 14`: it is `R * cos (pi / 14)`. -/
lemma ring_adjacent_distance (R : ℝ) (hR : 0 ≤ R) (theta : ℕ) :
    dist2 (ring_coords R 14 theta) (ring_coords R 14 (theta + 1))
      = R * Real.cos (Real.pi / 14) := by
  have hr : (0 : ℝ) ≤ R / (2 * Real.tan (Real.pi / 14)) :=
    div_nonneg hR (by nlinarith [tan_pi_div_14_pos])
  set r : ℝ := R / (2 * Real.tan (Real.pi / 14)) with hrdef
  set A : ℝ := (theta : ℝ) * 2 * Real.pi / 14 with hA
  set B : ℝ := ((theta : ℕ) + 1 : ℕ) * 2 * Real.pi / 14 with hB
  have hchord := cos_sin_chord A B
  have hAB : A - B = -(2 * (Real.pi / 14)) := by
    rw [hA, hB]
    push_cast
    ring
  have hhalf : Real.cos (A - B) = 1 - 2 * Real.sin (Real.pi / 14) ^ 2 := by
    rw [hAB, Real.cos_neg]
    have := Real.sin_sq_eq_half_sub (Real.pi / 14)
    nlinarith [this]
  have hsq : (r * Real.cos A - r * Real.cos B) ^ 2
      + (r * Real.sin A - r * Real.sin B) ^ 2
      = (2 * r * Real.sin (Real.pi / 14)) ^ 2 := by
    have hexp : (r * Real.cos A - r * Real.cos B) ^ 2
        + (r * Real.sin A - r * Real.sin B) ^ 2
        = r ^ 2 * ((Real.cos A - Real.cos B) ^ 2
            + (Real.sin A - Real.sin B) ^ 2) := by ring
    rw [hexp, hchord, hhalf]
    ring
  have hcoords : dist2 (ring_coords R 14 theta) (ring_coords R 14 (theta + 1))
      = Real.sqrt ((r * Real.cos A - r * Real.cos B) ^ 2
          + (r * Real.sin A - r * Real.sin B) ^ 2) := by
    unfold dist2 ring_coords
    rw [hrdef, hA, hB]
    push_cast
    ring_nf
  have h2r : (0 : ℝ) ≤ 2 * r * Real.sin (Real.pi / 14) := by
    nlinarith [sin_pi_div_14_pos, hr]
  rw [hcoords, hsq, Real.sqrt_sq h2r]
  rw [hrdef, Real.tan_eq_sin_div_cos]
  have hsin := sin_pi_div_14_pos
  have hcos := cos_pi_div_14_pos
  field_simp
  ring

/-! ### The claims -/

/-- Claim C1: `get_cost(counter, Q)` is the exact sample-weighted average of
the QUBO cost function: the sum over bitstrings of
`counter[b] * z_b^T Q z_b` divided by the total number of samples. -/
theorem get_cost_weighted_average {n : ℕ} (counter : Counter)
    (Q : Matrix (Fin n) (Fin n) ℚ)
    (_hlen : ∀ kc ∈ counter, (kc.1).length = n)
    (_hbits : ∀ kc ∈ counter, ∀ d ∈ kc.1, d ≤ 1)
    (_hpos : 0 < total_count counter) :
    get_cost counter Q =
      (counter.map fun kc =>
          (kc.2 : ℚ) * ∑ i, ∑ j, zvec n kc.1 i * Q i j * zvec n kc.1 j).sum
        / ((total_count counter : ℕ) : ℚ) := by
  unfold get_cost
  simp only [get_cost_colouring_eq_double_sum]

/-- Witness for C1 at a concrete counter and QUBO matrix. -/
theorem get_cost_weighted_average_witness :
    get_cost cnt_ex Q_ex =
      (cnt_ex.map fun kc =>
          (kc.2 : ℚ) * ∑ i, ∑ j, zvec 2 kc.1 i * Q_ex i j * zvec 2 kc.1 j).sum
        / ((total_count cnt_ex : ℕ) : ℚ) :=
  get_cost_weighted_average cnt_ex Q_ex (by decide) (by decide) (by decide)

/-- Claim C4: `evaluate_mapping(new_coords, Q, shape)` returns the Frobenius
norm of `new_Q - Q` where `new_Q` is the symmetric matrix with zero diagonal
and off-diagonal entries `interaction_coeff / d(p_i, p_j)^6` over the
reshaped points. -/
theorem evaluate_mapping_frobenius {n : ℕ} (new_coords : List ℝ)
    (Q : Matrix (Fin n) (Fin n) ℝ)
    (_hlen : new_coords.length = 2 * n)
    (_hdist : ∀ i j : Fin n, i ≠ j →
      reshape2 new_coords n i ≠ reshape2 new_coords n j) :
    evaluate_mapping new_coords Q
        = np_linalg_norm (specNewQ (reshape2 new_coords n) - Q) ∧
      (∀ i j, specNewQ (reshape2 new_coords n) i j
          = specNewQ (reshape2 new_coords n) j i) ∧
      (∀ i, specNewQ (reshape2 new_coords n) i i = 0) := by
  refine ⟨?_, ?_, ?_⟩
  · unfold evaluate_mapping
    rw [squareform_pdist_eq_specNewQ]
  · intro i j
    unfold specNewQ
    rcases eq_or_ne i j with rfl | hij
    · rfl
    · rw [Matrix.of_apply, Matrix.of_apply, if_neg hij, if_neg hij.symm,
        dist2_comm]
  · intro i
    unfold specNewQ
    rw [Matrix.of_apply, if_pos rfl]

/-- Witness for C4 at a concrete coordinate vector and matrix. -/
theorem evaluate_mapping_frobenius_witness :
    evaluate_mapping coords_ex (0 : Matrix (Fin 2) (Fin 2) ℝ)
        = np_linalg_norm (specNewQ (reshape2 coords_ex 2) - 0) ∧
      (∀ i j, specNewQ (reshape2 coords_ex 2) i j
          = specNewQ (reshape2 coords_ex 2) j i) ∧
      (∀ i, specNewQ (reshape2 coords_ex 2) i i = 0) :=
  evaluate_mapping_frobenius coords_ex 0 (by simp [coords_ex])
    (by
      intro i j hij
      fin_cases i <;> fin_cases j <;>
        simp_all [reshape2, coords_ex, Prod.ext_iff, List.getD])

/-- Claim C5: in the QAOA repetition loop, a repetition in which `minimize`
raises leaves the accumulated `scores` and `params` unchanged, and the loop
always continues through all repetitions, collecting exactly the successful
results in order. -/
theorem qaoa_loop_error_handling (outcomes : List (Option (ℝ × List ℝ))) :
    (∀ st, qaoaStep st none = st) ∧
      qaoaLoop outcomes
        = ((outcomes.filterMap id).map Prod.fst,
           (outcomes.filterMap id).map Prod.snd) := by
  refine ⟨fun st => rfl, ?_⟩
  unfold qaoaLoop
  simpa using qaoaLoop_foldl outcomes ([], [])

/-- Claim C6: `get_cost` and `evaluate_mapping` contain no failure handling
of their own; their only partiality is the division, which is well defined
exactly on a positive total sample count, respectively pairwise distinct
reshaped points, and under those preconditions the checked versions never
take the error branch. -/
theorem unguarded_divisions_well_defined {n : ℕ} (counter : Counter)
    (Q : Matrix (Fin n) (Fin n) ℚ) (new_coords : List ℝ)
    (QR : Matrix (Fin n) (Fin n) ℝ) :
    ((get_cost_checked counter Q).isSome ↔ 0 < total_count counter) ∧
      (0 < total_count counter →
        get_cost_checked counter Q = some (get_cost counter Q)) ∧
      ((evaluate_mapping_checked new_coords QR).isSome ↔
        ∀ i j : Fin n, i ≠ j →
          reshape2 new_coords n i ≠ reshape2 new_coords n j) ∧
      ((∀ i j : Fin n, i ≠ j →
          reshape2 new_coords n i ≠ reshape2 new_coords n j) →
        evaluate_mapping_checked new_coords QR
          = some (evaluate_mapping new_coords QR)) := by
  refine ⟨?_, ?_, ?_, ?_⟩
  · unfold get_cost_checked pydiv
    rcases Nat.eq_zero_or_pos (total_count counter) with hz | hp
    · simp [hz]
    · have hne : ((total_count counter : ℕ) : ℚ) ≠ 0 := by
        exact_mod_cast Nat.pos_iff_ne_zero.mp hp
      simp [hne, hp]
  · intro hp
    unfold get_cost_checked pydiv get_cost
    rw [if_neg (by exact_mod_cast Nat.pos_iff_ne_zero.mp hp)]
  · unfold evaluate_mapping_checked
    rw [← pdist_ne_zero_iff_injective]
    by_cases h : ∀ p : PairIdx n, pdist (reshape2 new_coords n) p ≠ 0
    · simp [h]
    · simp [h]
  · intro hd
    unfold evaluate_mapping_checked
    rw [if_pos ((pdist_ne_zero_iff_injective _).mpr hd)]

/-- Witness for C6: the inner preconditions discharged at concrete inputs. -/
theorem unguarded_divisions_well_defined_witness :
    get_cost_checked cnt_ex Q_ex = some (get_cost cnt_ex Q_ex) :=
  (unguarded_divisions_well_defined cnt_ex Q_ex ([] : List ℝ)
      (0 : Matrix (Fin 2) (Fin 2) ℝ)).2.1 (by decide)

/-- Claim C7 counterexample: with `L = 14` and blockade radius `1`, the atoms
at `theta = 0` and `theta = 1` of the ring register are NOT separated by the
blockade-radius distance: the separation is `cos (pi / 14) < 1`. -/
theorem ring_adjacent_distance_counterexample :
    dist2 (ring_coords 1 14 0) (ring_coords 1 14 1) ≠ 1 := by
  have h := ring_adjacent_distance 1 (by norm_num) 0
  rw [show (0 + 1 : ℕ) = 1 from rfl, one_mul] at h
  rw [h]
  have hlt : Real.cos (Real.pi / 14) < 1 := by
    have := Real.cos_lt_cos_of_nonneg_of_le_pi (le_refl 0)
      (by nlinarith [Real.pi_pos]) pi_div_14_pos
    simpa using this
  exact ne_of_lt hlt

/-- Claim C7 (amended): the ring register places the `L = 14` atoms at
`R / (2 tan(pi/L)) * (cos(2 pi theta / L), sin(2 pi theta / L))`, and every
pair of circularly adjacent atoms is separated by exactly
`R_interatomic * cos (pi / L)` (slightly less than the blockade radius). -/
theorem ring_adjacent_distance_eq_cos_factor (R : ℝ) (hR : 0 ≤ R)
    (theta : ℕ) :
    dist2 (ring_coords R 14 theta) (ring_coords R 14 (theta + 1))
      = R * Real.cos (Real.pi / 14) :=
  ring_adjacent_distance R hR theta

/-- Witness for the amended C7 at `R = 2`, `theta = 0`. -/
theorem ring_adjacent_distance_eq_cos_factor_witness :
    dist2 (ring_coords 2 14 0) (ring_coords 2 14 (0 + 1))
      = 2 * Real.cos (Real.pi / 14) :=
  ring_adjacent_distance_eq_cos_factor 2 (by norm_num) 0
/-- Claim C10: both noise channels are trace-preserving: for every 2x2
complex matrix `rho` and every real `p`,
`trace (dephasing_channel rho p) = trace rho` and
`trace (depolarizing_channel rho p) = trace rho`. -/
theorem channels_trace_preserving (rho : Matrix (Fin 2) (Fin 2) ℂ) (p : ℝ) :
    (dephasing_channel rho p).trace = rho.trace ∧
      (depolarizing_channel rho p).trace = rho.trace := by
  have hx : (sigmax * rho * sigmax).trace = rho.trace := by
    rw [Matrix.trace_mul_cycle, sigmax_mul_sigmax, Matrix.one_mul]
  have hy : (sigmay * rho * sigmay).trace = rho.trace := by
    rw [Matrix.trace_mul_cycle, sigmay_mul_sigmay, Matrix.one_mul]
  have hz : (sigmaz * rho * sigmaz).trace = rho.trace := by
    rw [Matrix.trace_mul_cycle, sigmaz_mul_sigmaz, Matrix.one_mul]
  constructor
  · rw [dephasing_channel, Matrix.trace_add, Matrix.trace_smul, Matrix.trace_smul, hz,
      smul_eq_mul, smul_eq_mul]
    ring
  · rw [depolarizing_channel, Matrix.trace_add, Matrix.trace_smul, Matrix.trace_smul,
      Matrix.trace_add, Matrix.trace_add, hx, hy, hz, smul_eq_mul, smul_eq_mul]
    ring

/-- Claim C2: for every 2x2 complex matrix `rho` and probability `p`,
`dephasing_channel rho p` is exactly `(1 - p/2) rho + (p/2) sz rho sz`, and
this equals the Kraus application `M0 rho M0' + M1 rho M1'` with
`M0 = sqrt(1 - p/2) I` and `M1 = sqrt(p/2) sz`. -/
theorem dephasing_channel_kraus (rho : Matrix (Fin 2) (Fin 2) ℂ) (p : ℝ)
    (h0 : 0 ≤ p) (h1 : p ≤ 1) :
    dephasing_channel rho p
        = ((1 : ℂ) - (p : ℂ) / 2) • rho + ((p : ℂ) / 2) • (sigmaz * rho * sigmaz) ∧
      dephasing_channel rho p
        = dephasing_M0 p * rho * (dephasing_M0 p)ᴴ
            + dephasing_M1 p * rho * (dephasing_M1 p)ᴴ := by
  refine ⟨rfl, ?_⟩
  rw [dephasing_M0, dephasing_M1, real_smul_kraus_apply, real_smul_kraus_apply,
    Real.sq_sqrt (by linarith), Real.sq_sqrt (by linarith),
    Matrix.conjTranspose_one, sigmaz_conjTranspose, Matrix.one_mul, Matrix.mul_one]
  have e1 : (((1 - p / 2 : ℝ)) : ℂ) = (1 : ℂ) - (p : ℂ) / 2 := by push_cast; ring
  have e2 : (((p / 2 : ℝ)) : ℂ) = (p : ℂ) / 2 := by push_cast; ring
  rw [e1, e2, dephasing_channel]

/-- Witness for C2 at `rho = sigmax`, `p = 1/2`. -/
theorem dephasing_channel_kraus_witness :
    dephasing_channel sigmax (1 / 2)
        = ((1 : ℂ) - ((1 / 2 : ℝ) : ℂ) / 2) • sigmax
            + (((1 / 2 : ℝ) : ℂ) / 2) • (sigmaz * sigmax * sigmaz) ∧
      dephasing_channel sigmax (1 / 2)
        = dephasing_M0 (1 / 2) * sigmax * (dephasing_M0 (1 / 2))ᴴ
            + dephasing_M1 (1 / 2) * sigmax * (dephasing_M1 (1 / 2))ᴴ :=
  dephasing_channel_kraus sigmax (1 / 2) (by norm_num) (by norm_num)

/-- Claim C3: for every 2x2 complex matrix `rho` and probability `p`,
`depolarizing_channel rho p` is exactly
`(1 - 3p/4) rho + (p/4)(sx rho sx + sy rho sy + sz rho sz)`, and this equals
the Kraus application with `M0 = sqrt(1 - 3p/4) I`, `M1 = sqrt(p/4) sx`,
`M2 = sqrt(p/4) sy`, `M3 = sqrt(p/4) sz`. -/
theorem depolarizing_channel_kraus (rho : Matrix (Fin 2) (Fin 2) ℂ) (p : ℝ)
    (h0 : 0 ≤ p) (h1 : p ≤ 1) :
    depolarizing_channel rho p
        = ((1 : ℂ) - 3 * (p : ℂ) / 4) • rho +
            ((p : ℂ) / 4) •
              (sigmax * rho * sigmax + sigmay * rho * sigmay
                + sigmaz * rho * sigmaz) ∧
      depolarizing_channel rho p
        = depolarizing_M0 p * rho * (depolarizing_M0 p)ᴴ
            + depolarizing_M1 p * rho * (depolarizing_M1 p)ᴴ
            + depolarizing_M2 p * rho * (depolarizing_M2 p)ᴴ
            + depolarizing_M3 p * rho * (depolarizing_M3 p)ᴴ := by
  refine ⟨rfl, ?_⟩
  rw [depolarizing_M0, depolarizing_M1, depolarizing_M2, depolarizing_M3,
    real_smul_kraus_apply, real_smul_kraus_apply, real_smul_kraus_apply,
    real_smul_kraus_apply, Real.sq_sqrt (by linarith), Real.sq_sqrt (by linarith),
    Matrix.conjTranspose_one, sigmax_conjTranspose, sigmay_conjTranspose,
    sigmaz_conjTranspose, Matrix.one_mul, Matrix.mul_one]
  have e1 : (((1 - 3 * p / 4 : ℝ)) : ℂ) = (1 : ℂ) - 3 * (p : ℂ) / 4 := by
    push_cast; ring
  have e2 : (((p / 4 : ℝ)) : ℂ) = (p : ℂ) / 4 := by push_cast; ring
  rw [e1, e2, depolarizing_channel, smul_add, smul_add]
  abel

/-- Witness for C3 at `rho = sigmaz`, `p = 1/2`. -/
theorem depolarizing_channel_kraus_witness :
    depolarizing_channel sigmaz (1 / 2)
        = ((1 : ℂ) - 3 * ((1 / 2 : ℝ) : ℂ) / 4) • sigmaz +
            (((1 / 2 : ℝ) : ℂ) / 4) •
              (sigmax * sigmaz * sigmax + sigmay * sigmaz * sigmay
                + sigmaz * sigmaz * sigmaz) ∧
      depolarizing_channel sigmaz (1 / 2)
        = depolarizing_M0 (1 / 2) * sigmaz * (depolarizing_M0 (1 / 2))ᴴ
            + depolarizing_M1 (1 / 2) * sigmaz * (depolarizing_M1 (1 / 2))ᴴ
            + depolarizing_M2 (1 / 2) * sigmaz * (depolarizing_M2 (1 / 2))ᴴ
            + depolarizing_M3 (1 / 2) * sigmaz * (depolarizing_M3 (1 / 2))ᴴ :=
  depolarizing_channel_kraus sigmaz (1 / 2) (by norm_num) (by norm_num)

/-- Claim C9: the dephasing channel conserves the z-coordinate of the Bloch
vector and contracts the other two by `1 - p`:
`dephasing_channel (vector_to_dm rx ry rz) p
  = vector_to_dm ((1-p) rx) ((1-p) ry) rz`. -/
theorem dephasing_channel_bloch_action (r_x r_y r_z p : ℝ) :
    dephasing_channel (vector_to_dm r_x r_y r_z) p
      = vector_to_dm ((1 - p) * r_x) ((1 - p) * r_y) r_z := by
  have key : ∀ a b c : ℝ, vector_to_dm a b c
      = !![((1 : ℂ) + c) / 2, ((a : ℂ) - b * Complex.I) / 2;
           ((a : ℂ) + b * Complex.I) / 2, ((1 : ℂ) - c) / 2] := by
    intro a b c
    ext i j
    fin_cases i <;> fin_cases j <;>
      · simp [vector_to_dm, sigmax, sigmay, sigmaz, Matrix.one_apply]
        ring
  rw [key, key, dephasing_channel]
  ext i j
  fin_cases i <;> fin_cases j <;>
    · simp [sigmaz, Matrix.mul_apply, Fin.sum_univ_succ]
      ring

/-- Claim C8 (code bug): the Bloch-vector round trip loses the y-coordinate.
`dm_to_vector` computes `r_y` as `np.real((I[1,0] - I[0,1]) / 2)`, the real
part of the purely imaginary number `i * r_y`, which is always `0`.  At the
input `(0, 1, 0)` the round trip returns `(0, 0, 0)` instead of `(0, 1, 0)`. -/
theorem dm_to_vector_roundtrip_loses_y :
    dm_to_vector (vector_to_dm 0 1 0) = (0, 0, 0) := by
  simp [dm_to_vector, vector_to_dm, sigmax, sigmay, sigmaz, Prod.ext_iff,
    Matrix.one_apply]

